import Mathlib

/-!
Shallow embedding of the graphql-freeze runtime codec engine:
`runtime/src/request-encoder.ts` (request encoding) and the runtime
index module (codec types and response decoding).

JavaScript values appearing in selections, argument objects and wire
responses are modelled by the inductive `JSVal`; JavaScript objects are
ordered association lists (insertion order), mirroring
`Object.entries` iteration order.  `throw new Error(...)` sites are
modelled by the inductive `Err`, one constructor per throw site, and
all fallible functions return `Except Err`.  The decimal rendering of
a JavaScript number in template literals is modelled by the verified
printer `natStr`.
-/

/-- Errors raised by the encode/decode engine, one constructor per
`throw` site in the source. -/
inductive Err : Type where
  | unknownField (field : String)
  | expectedObject
  | missingSubCodec (field : String)
  | invalidSelectionShape (field : String)
  | missingArgsCodec
  | unknownArgument (arg : String)
  | missingSubCodecFn
  | invalidFunctionShape
  | missingDecoder (field : String)
  | expectedArray
  | custom (msg : String)
  deriving DecidableEq, Repr

/-- Model of the JavaScript runtime values handled by the engine. -/
inductive JSVal : Type where
  | num (n : Int)
  | str (s : String)
  | bool (b : Bool)
  | null
  | undef
  | arr (elems : List JSVal)
  | obj (fields : List (String × JSVal))

/-- One entry of a field descriptor's `args` map: declared wire type
name and the argument value encoder. -/
structure ArgCodec : Type where
  type : String
  encode : JSVal → Except Err JSVal

mutual
/-- `Codec` from the runtime index module: a map from field name to
field descriptor.  The TypeScript `Record` is modelled as an ordered
association list. -/
inductive Codec : Type where
  | mk : List (String × Codec.Field) → Codec
/-- `CodecField` from the runtime index module: a decode function, an
optional sub-codec and an optional argument-encoder map.  The lazy
`codec?: () => Codec` supplier is modelled by the codec value it
returns. -/
inductive Codec.Field : Type where
  | mk : (JSVal → Except Err JSVal) → Option Codec → Option (List (String × ArgCodec)) → Codec.Field
end

/-- Field map of a codec. -/
def Codec.entries : Codec → List (String × Codec.Field)
  | .mk fs => fs

/-- Decode function of a field descriptor. -/
def Codec.Field.decode : Codec.Field → JSVal → Except Err JSVal
  | .mk d _ _ => d

/-- Optional sub-codec of a field descriptor (`codec` property). -/
def Codec.Field.sub : Codec.Field → Option Codec
  | .mk _ c _ => c

/-- Optional argument-encoder map of a field descriptor (`args`
property). -/
def Codec.Field.args : Codec.Field → Option (List (String × ArgCodec))
  | .mk _ _ a => a

/-- Property lookup on a string-keyed record, modelling `record[key]`. -/
def lookupStr {α : Type} : List (String × α) → String → Option α
  | [], _ => none
  | (k, v) :: rest, name => if k = name then some v else lookupStr rest name

/-- Field lookup on a codec, modelling `codec[fieldName]`. -/
def Codec.find (c : Codec) (name : String) : Option Codec.Field :=
  lookupStr c.entries name

/-- Decimal digit character. -/
def digitChar (d : Nat) : Char := Char.ofNat (48 + d)

/-- Decimal digit list of a natural number, most significant first. -/
def natDigits (n : Nat) : List Char :=
  if n < 10 then [digitChar n]
  else natDigits (n / 10) ++ [digitChar (n % 10)]
  termination_by n
  decreasing_by
    omega

/-- Model of JavaScript decimal rendering of a (non-negative) number,
as used by template literals such as `` `v${counter}` ``. -/
def natStr (n : Nat) : String := ⟨natDigits n⟩

/-- Value of a digit character. -/
def digitVal (c : Char) : Nat := c.toNat - 48

/-- Decimal value of a digit list, used to invert `natDigits`. -/
def digitsVal (ds : List Char) : Nat :=
  ds.foldl (fun a c => 10 * a + digitVal c) 0

/-- Variable name generated by `newVariableName`. -/
def varName (n : Nat) : String := "v" ++ natStr n

mutual
/-- Size measure on `JSVal`, used only for termination of the
encoding recursion. -/
def jsize : JSVal → Nat
  | .arr xs => 1 + jsizeList xs
  | .obj fs => 1 + jsizeFields fs
  | _ => 1
/-- Size of a list of values. -/
def jsizeList : List JSVal → Nat
  | [] => 0
  | x :: xs => jsize x + jsizeList xs
/-- Size of an entry list (keys contribute nothing). -/
def jsizeFields : List (String × JSVal) → Nat
  | [] => 0
  | (_, v) :: rest => jsize v + jsizeFields rest
end

theorem jsize_pos (v : JSVal) : 1 ≤ jsize v := by
  cases v <;> simp [jsize]

/-- Entries of a JavaScript array, with the stringified indices as
keys, starting at index `i`: this is what `Object.entries` yields on
an array. -/
def indexEntries (i : Nat) : List JSVal → List (String × JSVal)
  | [] => []
  | x :: xs => (natStr i, x) :: indexEntries (i + 1) xs

/-- Model of `Object.entries`. -/
def jsEntries : JSVal → List (String × JSVal)
  | .obj fs => fs
  | .arr xs => indexEntries 0 xs
  | _ => []

/-- Indexing `xs[i]` on a JavaScript array: out-of-bounds access
yields `undefined`. -/
def getIdx (xs : List JSVal) (i : Nat) : JSVal :=
  xs.getD i (.undef : JSVal)

/-- Whether `typeof v === "object"` holds (true for `null`, arrays
and plain objects). -/
def typeofObject : JSVal → Bool
  | .null => true
  | .arr _ => true
  | .obj _ => true
  | _ => false

theorem jsizeFields_indexEntries (i : Nat) (xs : List JSVal) :
    jsizeFields (indexEntries i xs) = jsizeList xs := by
  induction xs generalizing i with
  | nil => rfl
  | cons x xs ih => simp [indexEntries, jsizeFields, jsizeList, ih]

theorem jsize_getIdx_le (xs : List JSVal) (i : Nat) :
    jsize (getIdx xs i) ≤ jsizeList xs + 1 := by
  induction xs generalizing i with
  | nil => simp [getIdx, jsize, jsizeList]
  | cons x xs ih =>
    cases i with
    | zero =>
      rw [getIdx, List.getD_cons_zero]
      have := jsize_pos x
      simp [jsizeList]
      omega
    | succ j =>
      have := ih j
      rw [getIdx, List.getD_cons_succ]
      rw [getIdx] at this
      have hx := jsize_pos x
      simp only [List.getD, List.get?_eq_getElem?] at this ⊢
      simp [jsizeList]
      omega

theorem dec_obj_entries (fs : List (String × JSVal)) :
    4 * jsizeFields fs + 3 < 4 * jsize (JSVal.obj fs) := by
  simp only [jsize]
  omega

theorem dec_arr_entries (xs : List JSVal) :
    4 * jsizeFields (indexEntries 0 xs) + 3 < 4 * jsize (JSVal.arr xs) := by
  rw [jsizeFields_indexEntries]
  simp only [jsize]
  omega

theorem dec_entries_field (k : String) (v : JSVal)
    (rest : List (String × JSVal)) :
    4 * jsize v + 2 < 4 * jsizeFields ((k, v) :: rest) + 3 := by
  simp only [jsizeFields]
  omega

theorem dec_entries_rest (k : String) (v : JSVal)
    (rest : List (String × JSVal)) :
    4 * jsizeFields rest + 3 < 4 * jsizeFields ((k, v) :: rest) + 3 := by
  have := jsize_pos v
  simp only [jsizeFields]
  omega

theorem dec_field_fn (xs : List JSVal) :
    4 * jsize (getIdx xs 1) + 1 < 4 * jsize (JSVal.arr xs) + 2 := by
  have := jsize_getIdx_le xs 1
  simp only [jsize]
  omega

/-- One extracted variable (the `Variable` interface): declared wire
type, generated name, already-encoded value. -/
structure Variable : Type where
  type : String
  name : String
  value : JSVal

/-- Per-request mutable state of `GraphQLRequest`: the ordered list of
extracted variables (the `variables` array, here `vars`) and the
monotonic name counter starting at 1. -/
structure EncState : Type where
  vars : List Variable
  variableCounter : Nat

/-- Argument filter of `encodeFunction`: keep the entries whose value
is neither `null` nor `undefined`. -/
def keepArg : String × JSVal → Bool
  | (_, .null) => false
  | (_, .undef) => false
  | _ => true

/-- Loop body of `encodeFunction` over the filtered argument entries:
look up each argument's encoder (failing `UnknownArgument` when
absent), encode the value, allocate a fresh variable name, record the
variable and emit the `argName: $variableName` fragment. -/
def encodeArgsList (argsMap : List (String × ArgCodec)) :
    List (String × JSVal) → EncState → Except Err (List String × EncState)
  | [], st => .ok ([], st)
  | (argName, argValue) :: rest, st =>
    match lookupStr argsMap argName with
    | none => .error (.unknownArgument argName)
    | some ac =>
      match ac.encode argValue with
      | .error e => .error e
      | .ok value =>
        let vn := varName st.variableCounter
        let st1 : EncState :=
          ⟨st.vars ++ [⟨ac.type, vn, value⟩], st.variableCounter + 1⟩
        match encodeArgsList argsMap rest st1 with
        | .error e => .error e
        | .ok (frags, st2) => .ok ((argName ++ ": $" ++ vn) :: frags, st2)

mutual
/-- `GraphQLRequest.encodeObject`: requires a non-null object-typed
value, encodes every `Object.entries` entry via `encodeField`
(failing `UnknownField` when the codec lacks the field) and joins the
fragments as `\x7b frag1 frag2 \x7d`. -/
def encodeObject (v : JSVal) (codec : Codec) (st : EncState) :
    Except Err (String × EncState) :=
  match v with
  | .obj fs =>
    match encodeEntries fs codec st with
    | .error e => .error e
    | .ok (frags, st1) =>
      .ok ("\x7b " ++ String.intercalate " " frags ++ " \x7d", st1)
  | .arr xs =>
    match encodeEntries (indexEntries 0 xs) codec st with
    | .error e => .error e
    | .ok (frags, st1) =>
      .ok ("\x7b " ++ String.intercalate " " frags ++ " \x7d", st1)
  | _ => .error .expectedObject
  termination_by 4 * jsize v
  decreasing_by
    · exact dec_obj_entries _
    · exact dec_arr_entries _

/-- Iteration of `encodeObject` over the selection's entries in
insertion order. -/
def encodeEntries (l : List (String × JSVal)) (codec : Codec) (st : EncState) :
    Except Err (List String × EncState) :=
  match l with
  | [] => .ok ([], st)
  | (fieldName, fieldValue) :: rest =>
    match lookupStr codec.entries fieldName with
    | none => .error (.unknownField fieldName)
    | some cf =>
      match encodeField fieldName fieldValue cf st with
      | .error e => .error e
      | .ok (frag, st1) =>
        match encodeEntries rest codec st1 with
        | .error e => .error e
        | .ok (frags, st2) => .ok (frag :: frags, st2)
  termination_by 4 * jsizeFields l + 3
  decreasing_by
    · exact dec_entries_field _ _ _
    · exact dec_entries_rest _ _ _

/-- `GraphQLRequest.encodeField`: shape dispatch on the selection
value, in source order: number, then array, then the sub-codec
presence check, then object, then the failure case. -/
def encodeField (field : String) (value : JSVal) (cf : Codec.Field)
    (st : EncState) : Except Err (String × EncState) :=
  match value with
  | .num _ => .ok (field, st)
  | .arr xs => encodeFunction field (getIdx xs 0) (getIdx xs 1) cf st
  | v =>
    match cf.sub with
    | none => .error (.missingSubCodec field)
    | some subCodec =>
      if typeofObject v then
        match encodeObject v subCodec st with
        | .error e => .error e
        | .ok (s, st1) => .ok (field ++ " " ++ s, st1)
      else .error (.invalidSelectionShape field)
  termination_by 4 * jsize value + 2
  decreasing_by
    · exact dec_field_fn _
    · omega

/-- `GraphQLRequest.encodeFunction`: requires the descriptor's `args`
map, processes the non-null argument entries, then emits either the
bare/called field (scalar sentinel sub-selection) or the called field
with a nested object encoding. -/
def encodeFunction (field : String) (params : JSVal) (fieldRequest : JSVal)
    (cf : Codec.Field) (st : EncState) : Except Err (String × EncState) :=
  match cf.args with
  | none => .error .missingArgsCodec
  | some argsMap =>
    match encodeArgsList argsMap ((jsEntries params).filter keepArg) st with
    | .error e => .error e
    | .ok (input, st1) =>
      match fieldRequest with
      | .num _ =>
        if input.isEmpty then .ok (field, st1)
        else .ok (field ++ "(" ++ String.intercalate ", " input ++ ")", st1)
      | v =>
        if typeofObject v then
          match cf.sub with
          | none => .error .missingSubCodecFn
          | some subCodec =>
            match encodeObject v subCodec st1 with
            | .error e => .error e
            | .ok (s, st2) =>
              if input.isEmpty then .ok (field ++ " " ++ s, st2)
              else .ok (field ++ "(" ++ String.intercalate ", " input ++ ") " ++ s, st2)
        else .error .invalidFunctionShape
  termination_by 4 * jsize fieldRequest + 1
  decreasing_by
    omega
end

/-- `variablesSupplyList`: the operation's variable-declaration
header, or the empty string when no variables were extracted. -/
def variablesSupplyList (vars : List Variable) : String :=
  if vars.isEmpty then ""
  else
    "(" ++ String.intercalate ", "
      (vars.map (fun v => "$" ++ v.name ++ ": " ++ v.type)) ++ ")"

/-- `Object.assign(a, b)` for a single-key source `b`: overwrite in
place when the key is already present, append otherwise. -/
def assign1 (m : List (String × JSVal)) (k : String) (v : JSVal) :
    List (String × JSVal) :=
  if m.any (fun p => p.1 == k) then
    m.map (fun p => if p.1 == k then (k, v) else p)
  else m ++ [(k, v)]

/-- `variablesJsonObject`: the transmitted name-to-value record, or an
explicit absence when no variables were extracted. -/
def variablesJsonObject (vars : List Variable) :
    Option (List (String × JSVal)) :=
  if vars.isEmpty then none
  else some ((vars.map (fun v => (v.name, v.value))).foldl
    (fun a p => assign1 a p.1 p.2) [])

/-- The `EncodedRequest` interface: query text plus optional variable
record (the `variables` property, here `vars`). -/
structure EncodedRequest : Type where
  query : String
  vars : Option (List (String × JSVal))

/-- `encodeRequest`: encode the selection against the root codec with
a fresh `GraphQLRequest` (no variables, counter 1), then assemble the
query text `operationType ++ supplyList ++ " " ++ encodedObject`. -/
def encodeRequest (operationType : String) (request : JSVal)
    (codec : Codec) : Except Err EncodedRequest :=
  match encodeObject request codec ⟨[], 1⟩ with
  | .error e => .error e
  | .ok (encodedObject, st) =>
    .ok ⟨operationType ++ variablesSupplyList st.vars ++ " " ++ encodedObject,
      variablesJsonObject st.vars⟩

/-- Loop of `decodeObject` over the response's entries: look up the
decoder for each present key, failing `MissingDecoder` when the codec
has no entry for it, and apply it to the field value. -/
def decodeFields (decoder : Codec) :
    List (String × JSVal) → Except Err (List (String × JSVal))
  | [] => .ok []
  | (fieldName, fieldValue) :: rest =>
    match decoder.find fieldName with
    | none => .error (.missingDecoder fieldName)
    | some cf =>
      match cf.decode fieldValue with
      | .error e => .error e
      | .ok d =>
        match decodeFields decoder rest with
        | .error e => .error e
        | .ok ds => .ok ((fieldName, d) :: ds)

/-- `decodeObject`: requires a non-null, non-undefined object-typed
wire value, decodes every present key and accumulates the results
with `Object.assign`. -/
def decodeObject (value : JSVal) (decoder : Codec) :
    Except Err (List (String × JSVal)) :=
  match value with
  | .obj fs =>
    match decodeFields decoder fs with
    | .error e => .error e
    | .ok ds => .ok (ds.foldl (fun a p => assign1 a p.1 p.2) [])
  | .arr xs =>
    match decodeFields decoder (indexEntries 0 xs) with
    | .error e => .error e
    | .ok ds => .ok (ds.foldl (fun a p => assign1 a p.1 p.2) [])
  | _ => .error .expectedObject

mutual
/-- Number of variables that a successful `encodeObject` extracts
from a selection value: one per non-null, non-undefined argument
entry, counted in depth-first traversal order. -/
def countSel : JSVal → Nat
  | .obj fs => countEntries fs
  | .arr xs => countEntries (indexEntries 0 xs)
  | _ => 0
  termination_by v => 4 * jsize v
  decreasing_by
    · exact dec_obj_entries _
    · exact dec_arr_entries _

/-- Variable count of an entry list. -/
def countEntries : List (String × JSVal) → Nat
  | [] => 0
  | (_, v) :: rest => countFieldVal v + countEntries rest
  termination_by l => 4 * jsizeFields l + 3
  decreasing_by
    · exact dec_entries_field _ _ _
    · exact dec_entries_rest _ _ _

/-- Variable count of one selection field value. -/
def countFieldVal : JSVal → Nat
  | .num _ => 0
  | .arr xs => countFn (getIdx xs 0) (getIdx xs 1)
  | v => if typeofObject v then countSel v else 0
  termination_by v => 4 * jsize v + 2
  decreasing_by
    · exact dec_field_fn _
    · omega

/-- Variable count of one argumented field: the filtered argument
entries plus the count of the sub-selection. -/
def countFn (params fieldRequest : JSVal) : Nat :=
  ((jsEntries params).filter keepArg).length +
    (if typeofObject fieldRequest then countSel fieldRequest else 0)
  termination_by 4 * jsize fieldRequest + 1
  decreasing_by
    omega
end

/-- The consecutive variable names `varName start, …,
varName (start + k - 1)`. -/
def varNames : Nat → Nat → List String
  | _, 0 => []
  | start, k + 1 => varName start :: varNames (start + 1) k

/-- Relation between the encoder states before and after a successful
encoding step that extracted `k` variables: the variable list grows by
`k` consecutively-named variables and the counter advances by `k`. -/
def VarsFrom (st st2 : EncState) (k : Nat) : Prop :=
  st2.variableCounter = st.variableCounter + k ∧
  ∃ d : List Variable, st2.vars = st.vars ++ d ∧
    d.map Variable.name = varNames st.variableCounter k

/-- Identity decode function used by the concrete example codecs. -/
def dOk : JSVal → Except Err JSVal := fun v => .ok v

/-- Example sub-codec: an object type with scalar fields `name` and
`email`. -/
def userCodec : Codec :=
  .mk [("name", .mk dOk none none), ("email", .mk dOk none none)]

/-- Example root codec: `getUser` accepts the integer argument `id`
(wire type `Int`) and returns a `userCodec` object. -/
def rootCodec : Codec :=
  .mk [("getUser", .mk dOk (some userCodec)
    (some [("id", ⟨"Int", fun v => .ok v⟩)]))]

/-- The example selection
`\x7b getUser: [\x7b id: 42 \x7d, \x7b name: 1, email: 1 \x7d] \x7d`. -/
def getUserSel : JSVal :=
  .obj [("getUser", .arr [.obj [("id", .num 42)],
    .obj [("name", .num 1), ("email", .num 1)]])]

/-- A field descriptor with no sub-codec and no argument map. -/
def plainField : Codec.Field := .mk dOk none none

/-- A codec with the single field `alpha`, carrying no sub-codec. -/
def alphaCodec : Codec := .mk [("alpha", plainField)]

/-- The empty codec. -/
def emptyCodec : Codec := .mk []

/-- The fresh state `encodeRequest` starts from: no variables,
counter 1. -/
def st0 : EncState := ⟨[], 1⟩

/-- Codec whose field `f` takes two `Int` arguments `a` and `b`. -/
def twoArgCodec : Codec :=
  .mk [("f", .mk dOk none
    (some [("a", ⟨"Int", fun v => .ok v⟩), ("b", ⟨"Int", fun v => .ok v⟩)]))]

/-- Selection with one argumented field carrying two arguments. -/
def twoArgSel : JSVal :=
  .obj [("f", .arr [.obj [("a", .num 1), ("b", .num 2)], .num 1])]

theorem digitsVal_append_singleton (ds : List Char) (c : Char) :
    digitsVal (ds ++ [c]) = 10 * digitsVal ds + digitVal c := by
  simp [digitsVal, List.foldl_append]

theorem digitVal_digitChar {d : Nat} (h : d < 10) :
    digitVal (digitChar d) = d := by
  revert h
  revert d
  decide

theorem digitsVal_natDigits (n : Nat) : digitsVal (natDigits n) = n := by
  induction n using Nat.strong_induction_on with
  | _ n ih =>
    rw [natDigits]
    by_cases h : n < 10
    · rw [if_pos h]
      simp [digitsVal, digitVal_digitChar h]
    · rw [if_neg h]
      rw [digitsVal_append_singleton,
        ih (n / 10) (Nat.div_lt_self (by omega) (by omega)),
        digitVal_digitChar (Nat.mod_lt n (by omega))]
      omega

theorem natStr_injective : Function.Injective natStr := by
  intro a b h
  have hd : natDigits a = natDigits b := congrArg String.data h
  have := congrArg digitsVal hd
  simpa [digitsVal_natDigits] using this

theorem varName_injective : Function.Injective varName := by
  intro a b h
  apply natStr_injective
  have hd := congrArg String.data h
  simp only [varName] at hd
  have : ("v".data ++ (natStr a).data) = ("v".data ++ (natStr b).data) := by
    simpa [String.data_append] using hd
  exact String.ext (List.append_cancel_left this)

theorem natDigits_lt10 {n : Nat} (h : n < 10) :
    natDigits n = [digitChar n] := by
  rw [natDigits]
  exact if_pos h

theorem natStr_one : natStr 1 = "1" := by
  rw [natStr, natDigits_lt10 (by omega)]
  rfl

theorem encodeObject_obj (fs : List (String × JSVal)) (c : Codec) (st : EncState) :
    encodeObject (.obj fs) c st =
      match encodeEntries fs c st with
      | .error e => .error e
      | .ok (frags, st1) =>
        .ok ("\x7b " ++ String.intercalate " " frags ++ " \x7d", st1) := by
  rw [encodeObject]

theorem encodeObject_arr (xs : List JSVal) (c : Codec) (st : EncState) :
    encodeObject (.arr xs) c st =
      match encodeEntries (indexEntries 0 xs) c st with
      | .error e => .error e
      | .ok (frags, st1) =>
        .ok ("\x7b " ++ String.intercalate " " frags ++ " \x7d", st1) := by
  rw [encodeObject]

theorem encodeObject_null (c : Codec) (st : EncState) :
    encodeObject .null c st = .error .expectedObject := by
  rw [encodeObject]
  all_goals intro _ h
  all_goals exact JSVal.noConfusion h

theorem encodeObject_num (n : Int) (c : Codec) (st : EncState) :
    encodeObject (.num n) c st = .error .expectedObject := by
  rw [encodeObject]
  all_goals intro _ h
  all_goals exact JSVal.noConfusion h

theorem encodeObject_str (s : String) (c : Codec) (st : EncState) :
    encodeObject (.str s) c st = .error .expectedObject := by
  rw [encodeObject]
  all_goals intro _ h
  all_goals exact JSVal.noConfusion h

theorem encodeObject_bool (b : Bool) (c : Codec) (st : EncState) :
    encodeObject (.bool b) c st = .error .expectedObject := by
  rw [encodeObject]
  all_goals intro _ h
  all_goals exact JSVal.noConfusion h

theorem encodeObject_undef (c : Codec) (st : EncState) :
    encodeObject .undef c st = .error .expectedObject := by
  rw [encodeObject]
  all_goals intro _ h
  all_goals exact JSVal.noConfusion h

theorem encodeEntries_nil (c : Codec) (st : EncState) :
    encodeEntries [] c st = .ok ([], st) := by
  rw [encodeEntries]

theorem encodeEntries_cons (k : String) (v : JSVal)
    (rest : List (String × JSVal)) (c : Codec) (st : EncState) :
    encodeEntries ((k, v) :: rest) c st =
      match lookupStr c.entries k with
      | none => .error (.unknownField k)
      | some cf =>
        match encodeField k v cf st with
        | .error e => .error e
        | .ok (frag, st1) =>
          match encodeEntries rest c st1 with
          | .error e => .error e
          | .ok (frags, st2) => .ok (frag :: frags, st2) := by
  rw [encodeEntries]

theorem encodeField_num (f : String) (n : Int) (cf : Codec.Field)
    (st : EncState) : encodeField f (.num n) cf st = .ok (f, st) := by
  rw [encodeField]

theorem encodeField_arr (f : String) (xs : List JSVal) (cf : Codec.Field)
    (st : EncState) :
    encodeField f (.arr xs) cf st =
      encodeFunction f (getIdx xs 0) (getIdx xs 1) cf st := by
  rw [encodeField]

theorem encodeField_obj (f : String) (fs : List (String × JSVal))
    (cf : Codec.Field) (st : EncState) :
    encodeField f (.obj fs) cf st =
      match cf.sub with
      | none => .error (.missingSubCodec f)
      | some subCodec =>
        match encodeObject (.obj fs) subCodec st with
        | .error e => .error e
        | .ok (s, st1) => .ok (f ++ " " ++ s, st1) := by
  rw [encodeField]
  all_goals try (intro _ h; exact JSVal.noConfusion h)
  cases cf.sub with
  | none => rfl
  | some subCodec => simp [typeofObject]

theorem encodeField_null (f : String) (cf : Codec.Field) (st : EncState) :
    encodeField f .null cf st =
      match cf.sub with
      | none => .error (.missingSubCodec f)
      | some _ => .error .expectedObject := by
  rw [encodeField]
  all_goals try (intro _ h; exact JSVal.noConfusion h)
  cases cf.sub with
  | none => rfl
  | some subCodec => simp [typeofObject, encodeObject_null]

theorem encodeField_str (f : String) (s : String) (cf : Codec.Field)
    (st : EncState) :
    encodeField f (.str s) cf st =
      match cf.sub with
      | none => .error (.missingSubCodec f)
      | some _ => .error (.invalidSelectionShape f) := by
  rw [encodeField]
  all_goals try (intro _ h; exact JSVal.noConfusion h)
  cases cf.sub with
  | none => rfl
  | some subCodec => simp [typeofObject]

theorem encodeField_bool (f : String) (b : Bool) (cf : Codec.Field)
    (st : EncState) :
    encodeField f (.bool b) cf st =
      match cf.sub with
      | none => .error (.missingSubCodec f)
      | some _ => .error (.invalidSelectionShape f) := by
  rw [encodeField]
  all_goals try (intro _ h; exact JSVal.noConfusion h)
  cases cf.sub with
  | none => rfl
  | some subCodec => simp [typeofObject]

theorem encodeField_undef (f : String) (cf : Codec.Field) (st : EncState) :
    encodeField f .undef cf st =
      match cf.sub with
      | none => .error (.missingSubCodec f)
      | some _ => .error (.invalidSelectionShape f) := by
  rw [encodeField]
  all_goals try (intro _ h; exact JSVal.noConfusion h)
  cases cf.sub with
  | none => rfl
  | some subCodec => simp [typeofObject]

theorem encodeFunction_eq (f : String) (p sub : JSVal) (cf : Codec.Field)
    (st : EncState) :
    encodeFunction f p sub cf st =
      match cf.args with
      | none => .error .missingArgsCodec
      | some argsMap =>
        match encodeArgsList argsMap ((jsEntries p).filter keepArg) st with
        | .error e => .error e
        | .ok (input, st1) =>
          match sub with
          | .num _ =>
            if input.isEmpty then .ok (f, st1)
            else .ok (f ++ "(" ++ String.intercalate ", " input ++ ")", st1)
          | v =>
            if typeofObject v then
              match cf.sub with
              | none => .error .missingSubCodecFn
              | some subCodec =>
                match encodeObject v subCodec st1 with
                | .error e => .error e
                | .ok (s, st2) =>
                  if input.isEmpty then .ok (f ++ " " ++ s, st2)
                  else .ok (f ++ "(" ++ String.intercalate ", " input ++ ") " ++ s, st2)
            else .error .invalidFunctionShape := by
  rw [encodeFunction]

theorem encodeEntries_mem_none {name : String} {v : JSVal}
    {l : List (String × JSVal)} {codec : Codec}
    (hm : (name, v) ∈ l) (hf : lookupStr codec.entries name = none) :
    ∀ st r, encodeEntries l codec st ≠ .ok r := by
  induction l with
  | nil => cases hm
  | cons hd tl ih =>
    obtain ⟨k, w⟩ := hd
    intro st r hok
    rw [encodeEntries_cons] at hok
    rcases List.mem_cons.mp hm with heq | htl
    · injection heq with h1 h2
      subst h1
      simp [hf] at hok
    · cases h1 : lookupStr codec.entries k with
      | none => simp [h1] at hok
      | some cf =>
        simp only [h1] at hok
        cases h2 : encodeField k w cf st with
        | error e => simp [h2] at hok
        | ok pr =>
          obtain ⟨frag, st1⟩ := pr
          simp only [h2] at hok
          cases h3 : encodeEntries tl codec st1 with
          | error e => simp [h3] at hok
          | ok r2 => exact ih htl st1 r2 h3

theorem encodeEntries_prefix_unknown {codec : Codec}
    (pre : List (String × JSVal)) {name : String} (v : JSVal)
    (post : List (String × JSVal))
    (hf : lookupStr codec.entries name = none) :
    ∀ st os st1, encodeEntries pre codec st = .ok (os, st1) →
      encodeEntries (pre ++ (name, v) :: post) codec st =
        .error (.unknownField name) := by
  induction pre with
  | nil =>
    intro st os st1 _
    rw [List.nil_append, encodeEntries_cons, hf]
  | cons hd tl ih =>
    obtain ⟨k, w⟩ := hd
    intro st os st1 hpre
    rw [encodeEntries_cons] at hpre
    rw [List.cons_append, encodeEntries_cons]
    cases h1 : lookupStr codec.entries k with
    | none => simp [h1] at hpre
    | some cf =>
      simp only [h1] at hpre ⊢
      cases h2 : encodeField k w cf st with
      | error e => simp [h2] at hpre
      | ok pr =>
        obtain ⟨frag, stx⟩ := pr
        simp only [h2] at hpre ⊢
        cases h3 : encodeEntries tl codec stx with
        | error e => simp [h3] at hpre
        | ok r2 =>
          obtain ⟨os2, st2⟩ := r2
          simp only [ih stx os2 st2 h3]

theorem decodeFields_mem_none {name : String} {v : JSVal}
    {l : List (String × JSVal)} {decoder : Codec}
    (hm : (name, v) ∈ l) (hf : decoder.find name = none) :
    ∀ ds, decodeFields decoder l ≠ .ok ds := by
  induction l with
  | nil => cases hm
  | cons hd tl ih =>
    obtain ⟨k, w⟩ := hd
    intro ds hok
    simp only [decodeFields] at hok
    rcases List.mem_cons.mp hm with heq | htl
    · injection heq with h1 h2
      subst h1
      simp [hf] at hok
    · cases h1 : decoder.find k with
      | none => simp [h1] at hok
      | some cf =>
        simp only [h1] at hok
        cases h2 : cf.decode w with
        | error e => simp [h2] at hok
        | ok d =>
          simp only [h2] at hok
          cases h3 : decodeFields decoder tl with
          | error e => simp [h3] at hok
          | ok ds2 => exact ih htl ds2 h3

theorem decodeFields_prefix_missing {decoder : Codec}
    (pre : List (String × JSVal)) {name : String} (v : JSVal)
    (post : List (String × JSVal)) (hf : decoder.find name = none) :
    ∀ ds1, decodeFields decoder pre = .ok ds1 →
      decodeFields decoder (pre ++ (name, v) :: post) =
        .error (.missingDecoder name) := by
  induction pre with
  | nil =>
    intro ds1 _
    rw [List.nil_append]
    simp only [decodeFields]
    rw [hf]
  | cons hd tl ih =>
    obtain ⟨k, w⟩ := hd
    intro ds1 hpre
    simp only [decodeFields] at hpre
    rw [List.cons_append]
    simp only [decodeFields]
    cases h1 : decoder.find k with
    | none => simp [h1] at hpre
    | some cf =>
      simp only [h1] at hpre ⊢
      cases h2 : cf.decode w with
      | error e => simp [h2] at hpre
      | ok d =>
        simp only [h2] at hpre ⊢
        cases h3 : decodeFields decoder tl with
        | error e => simp [h3] at hpre
        | ok ds2 => simp only [ih ds2 h3]

set_option maxHeartbeats 1000000 in
set_option maxRecDepth 4000 in
theorem encodeRequest_getUser_eval :
    encodeRequest "query" getUserSel rootCodec =
      .ok ⟨"query($v1: Int) \x7b getUser(id: $v1) \x7b name email \x7d \x7d",
        some [("v1", .num 42)]⟩ := by
  simp only [encodeRequest, encodeObject, encodeEntries, encodeField, encodeFunction,
    encodeArgsList, jsEntries, getIdx, lookupStr, Codec.entries, Codec.find,
    typeofObject, keepArg, rootCodec, userCodec, getUserSel, dOk, varName, natStr_one,
    variablesSupplyList, variablesJsonObject, assign1,
    Codec.Field.sub, Codec.Field.args, indexEntries, List.filter,
    List.getD_cons_zero, List.getD_cons_succ, ite_true, ite_false]
  rfl

/-- C1: the selection getUser: [id: 42, (name, email)] with operation
kind `query` against a codec whose `getUser` descriptor has an `id`
argument of wire type `Int` encodes to exactly the query text
`query($v1: Int) \x7b getUser(id: $v1) \x7b name email \x7d \x7d` and
the variable mapping `v1 = 42`. -/
theorem c1_nested_argument_example :
    encodeRequest "query" getUserSel rootCodec =
      .ok ⟨"query($v1: Int) \x7b getUser(id: $v1) \x7b name email \x7d \x7d",
        some [("v1", .num 42)]⟩ :=
  encodeRequest_getUser_eval

/-- C3 counterexample: a string-valued selection field against a
descriptor without a sub-codec fails with `MissingSubCodec` (the
`codec` presence check precedes the object-shape check), not with
`InvalidSelectionShape` as the claim requires. -/
theorem c3_shape_error_counterexample :
    encodeField "f" (.str "boom") plainField st0 =
      .error (.missingSubCodec "f") ∧
    encodeField "f" (.str "boom") plainField st0 ≠
      .error (.invalidSelectionShape "f") := by
  have heval : encodeField "f" (.str "boom") plainField st0 =
      .error (.missingSubCodec "f") := by
    rw [encodeField_str]
    rfl
  refine ⟨heval, ?_⟩
  intro h
  rw [heval] at h
  injection h with h2
  exact Err.noConfusion h2

/-- C3 amended: the dispatch precedence is numeric sentinel first,
then array, then keyed structure; a selection value of any other
shape (string, boolean, undefined) fails, with `MissingSubCodec` when
the descriptor has no sub-codec and `InvalidSelectionShape` when it
has one. -/
theorem c3_shape_dispatch_order :
    (∀ (f : String) (n : Int) (cf : Codec.Field) (st : EncState),
      encodeField f (.num n) cf st = .ok (f, st)) ∧
    (∀ (f : String) (xs : List JSVal) (cf : Codec.Field) (st : EncState),
      encodeField f (.arr xs) cf st =
        encodeFunction f (getIdx xs 0) (getIdx xs 1) cf st) ∧
    (∀ (f : String) (fs : List (String × JSVal)) (cf : Codec.Field)
        (st : EncState),
      encodeField f (.obj fs) cf st =
        match cf.sub with
        | none => .error (.missingSubCodec f)
        | some subCodec =>
          match encodeObject (.obj fs) subCodec st with
          | .error e => .error e
          | .ok (s, st1) => .ok (f ++ " " ++ s, st1)) ∧
    (∀ (f s : String) (cf : Codec.Field) (st : EncState),
      encodeField f (.str s) cf st =
        match cf.sub with
        | none => .error (.missingSubCodec f)
        | some _ => .error (.invalidSelectionShape f)) ∧
    (∀ (f : String) (b : Bool) (cf : Codec.Field) (st : EncState),
      encodeField f (.bool b) cf st =
        match cf.sub with
        | none => .error (.missingSubCodec f)
        | some _ => .error (.invalidSelectionShape f)) ∧
    (∀ (f : String) (cf : Codec.Field) (st : EncState),
      encodeField f .undef cf st =
        match cf.sub with
        | none => .error (.missingSubCodec f)
        | some _ => .error (.invalidSelectionShape f)) :=
  ⟨encodeField_num, encodeField_arr, encodeField_obj, encodeField_str,
    encodeField_bool, encodeField_undef⟩

/-- C4 counterexample: a response object with the key `extraField`
absent from the codec does not decode successfully: decoding fails
with `MissingDecoder`, so extra wire keys are not ignored. -/
theorem c4_extra_key_counterexample :
    decodeObject (.obj [("extraField", .num 1)]) emptyCodec =
      .error (.missingDecoder "extraField") := rfl

/-- C4 amended: decoding a response object containing a key absent
from the codec always fails (forward-compatible extra wire keys are
rejected, not ignored). -/
theorem c4_extra_key_always_fails {name : String} {v : JSVal}
    {fields : List (String × JSVal)} {decoder : Codec}
    (hm : (name, v) ∈ fields) (hf : decoder.find name = none) :
    ∀ ds, decodeObject (.obj fields) decoder ≠ .ok ds := by
  intro ds hok
  simp only [decodeObject] at hok
  cases h1 : decodeFields decoder fields with
  | error e => rw [h1] at hok; exact Except.noConfusion hok
  | ok ds2 => exact decodeFields_mem_none hm hf ds2 h1

/-- C4 witness: the amended statement applied to the concrete
response `extraField: 1` against the empty codec. -/
theorem c4_extra_key_always_fails_witness :
    decodeObject (.obj [("extraField", .num 1)]) emptyCodec ≠ .ok [] :=
  c4_extra_key_always_fails (List.Mem.head _)
    (show emptyCodec.find "extraField" = none from rfl) []

/-- C5 counterexample: when an earlier codec-unknown key precedes
`extraField`, the `MissingDecoder` error names the earlier key, not
`extraField` as the claim requires for every such key. -/
theorem c5_naming_counterexample :
    decodeObject (.obj [("alpha", .num 1), ("extraField", .num 2)])
        emptyCodec = .error (.missingDecoder "alpha") ∧
    decodeObject (.obj [("alpha", .num 1), ("extraField", .num 2)])
        emptyCodec ≠ .error (.missingDecoder "extraField") := by
  have heval : decodeObject (.obj [("alpha", .num 1), ("extraField", .num 2)])
      emptyCodec = .error (.missingDecoder "alpha") := rfl
  refine ⟨heval, ?_⟩
  intro h
  rw [heval] at h
  injection h with h2
  injection h2 with h3
  exact absurd h3 (by decide)

/-- C5 amended: `decodeObject` fails with `MissingDecoder` naming the
first codec-unknown key of the response, provided the preceding
entries decode successfully; in particular a response containing only
`extraField` fails naming `extraField`. -/
theorem c5_missing_decoder_names_first {decoder : Codec}
    (pre : List (String × JSVal)) {name : String} (v : JSVal)
    (post : List (String × JSVal)) (hf : decoder.find name = none)
    {ds1 : List (String × JSVal)}
    (hpre : decodeFields decoder pre = .ok ds1) :
    decodeObject (.obj (pre ++ (name, v) :: post)) decoder =
      .error (.missingDecoder name) := by
  simp only [decodeObject]
  rw [decodeFields_prefix_missing pre v post hf ds1 hpre]

/-- C5 witness: the amended statement applied to the one-key response
`extraField: 1` against the empty codec. -/
theorem c5_missing_decoder_names_first_witness :
    decodeObject (.obj ([] ++ ("extraField", .num 1) :: [])) emptyCodec =
      .error (.missingDecoder "extraField") :=
  c5_missing_decoder_names_first [] (.num 1) [] rfl rfl

/-- C6 counterexample: with the selection alpha: "x", beta: 1 against
a codec knowing only `alpha`, encoding fails with
`MissingSubCodec "alpha"`, not with `UnknownField` naming `beta`, even
though `beta` has no codec entry. -/
theorem c6_naming_counterexample :
    encodeObject (.obj [("alpha", .str "x"), ("beta", .num 1)])
        alphaCodec st0 = .error (.missingSubCodec "alpha") ∧
    encodeObject (.obj [("alpha", .str "x"), ("beta", .num 1)])
        alphaCodec st0 ≠ .error (.unknownField "beta") := by
  have heval : encodeObject (.obj [("alpha", .str "x"), ("beta", .num 1)])
      alphaCodec st0 = .error (.missingSubCodec "alpha") := by
    rw [encodeObject_obj, encodeEntries_cons]
    simp only [alphaCodec, plainField, Codec.entries, lookupStr, ite_true,
      ite_false, encodeField_str, Codec.Field.sub]
    try rfl
  refine ⟨heval, ?_⟩
  intro h
  rw [heval] at h
  injection h with h2
  exact Err.noConfusion h2

/-- C6 amended: a selection field absent from the codec is a hard
error: `encodeObject` never succeeds on such a selection, and when
the preceding entries encode successfully the error is `UnknownField`
naming the first such field. -/
theorem c6_unknown_field_hard_error :
    (∀ (fields : List (String × JSVal)) (codec : Codec) (st : EncState)
        (name : String) (v : JSVal), (name, v) ∈ fields →
      lookupStr codec.entries name = none →
      ∀ r, encodeObject (.obj fields) codec st ≠ .ok r) ∧
    (∀ (pre : List (String × JSVal)) (codec : Codec) (st : EncState)
        (name : String) (v : JSVal) (post : List (String × JSVal))
        (os : List String) (st1 : EncState),
      encodeEntries pre codec st = .ok (os, st1) →
      lookupStr codec.entries name = none →
      encodeObject (.obj (pre ++ (name, v) :: post)) codec st =
        .error (.unknownField name)) := by
  constructor
  · intro fields codec st name v hm hf r hok
    rw [encodeObject_obj] at hok
    cases h1 : encodeEntries fields codec st with
    | error e => rw [h1] at hok; exact Except.noConfusion hok
    | ok pr => exact encodeEntries_mem_none hm hf st pr h1
  · intro pre codec st name v post os st1 hpre hf
    rw [encodeObject_obj, encodeEntries_prefix_unknown pre v post hf st os st1 hpre]

/-- C6 witness: both parts of the amended statement at the concrete
selection `beta: 1` against a codec without `beta`. -/
theorem c6_unknown_field_hard_error_witness :
    encodeObject (.obj [("beta", .num 1)]) alphaCodec st0 ≠
      .ok ("x", st0) ∧
    encodeObject (.obj ([] ++ ("beta", .num 1) :: [])) alphaCodec st0 =
      .error (.unknownField "beta") := by
  constructor
  · exact c6_unknown_field_hard_error.1 [("beta", .num 1)] alphaCodec st0
      "beta" (.num 1) (List.Mem.head _) rfl ("x", st0)
  · exact c6_unknown_field_hard_error.2 [] alphaCodec st0 "beta" (.num 1) []
      [] st0 (encodeEntries_nil alphaCodec st0) rfl

/-- C8: encoding is deterministic: two calls of `encodeRequest` with
equal operation kinds, equal selections and equal codecs produce
identical encoded requests (each call owns a fresh variable counter
and list, so no state leaks between calls). -/
theorem c8_encode_deterministic (op1 op2 : String) (sel1 sel2 : JSVal)
    (c1 c2 : Codec) (hop : op1 = op2) (hsel : sel1 = sel2)
    (hc : c1 = c2) :
    encodeRequest op1 sel1 c1 = encodeRequest op2 sel2 c2 := by
  subst hop
  subst hsel
  subst hc
  rfl

/-- C8 witness: determinism at the concrete example request. -/
theorem c8_encode_deterministic_witness :
    encodeRequest "query" getUserSel rootCodec =
      encodeRequest "query" getUserSel rootCodec :=
  c8_encode_deterministic "query" "query" getUserSel getUserSel
    rootCodec rootCodec rfl rfl rfl

/-- C9: decoding the empty response object succeeds with the empty
mapping against every codec, also when the codec declares fields. -/
theorem c9_empty_response_ok (decoder : Codec) :
    decodeObject (.obj []) decoder = .ok [] := rfl

/-- C10: every numeric value, not only the sentinel 1, marks a
scalar/enum leaf: `encodeField` returns the bare field name for every
number and every field descriptor (JavaScript numbers are modelled by
`Int`). -/
theorem c10_any_number_is_sentinel (f : String) (n : Int)
    (cf : Codec.Field) (st : EncState) :
    encodeField f (.num n) cf st = .ok (f, st) := by
  rw [encodeField]

theorem countSel_obj (fs : List (String × JSVal)) :
    countSel (.obj fs) = countEntries fs := by
  rw [countSel]

theorem countSel_arr (xs : List JSVal) :
    countSel (.arr xs) = countEntries (indexEntries 0 xs) := by
  rw [countSel]

theorem countEntries_nil : countEntries [] = 0 := by
  rw [countEntries]

theorem countEntries_cons (k : String) (v : JSVal)
    (rest : List (String × JSVal)) :
    countEntries ((k, v) :: rest) = countFieldVal v + countEntries rest := by
  rw [countEntries]

theorem countFieldVal_num (n : Int) : countFieldVal (.num n) = 0 := by
  rw [countFieldVal]

theorem countFieldVal_arr (xs : List JSVal) :
    countFieldVal (.arr xs) = countFn (getIdx xs 0) (getIdx xs 1) := by
  rw [countFieldVal]

theorem countFieldVal_obj (fs : List (String × JSVal)) :
    countFieldVal (.obj fs) = countSel (.obj fs) := by
  rw [countFieldVal]
  all_goals try (intro _ h; exact JSVal.noConfusion h)
  simp [typeofObject]

theorem countFn_eq (p sub : JSVal) :
    countFn p sub = ((jsEntries p).filter keepArg).length +
      (if typeofObject sub then countSel sub else 0) := by
  rw [countFn]

theorem countFn_num (p : JSVal) (n : Int) :
    countFn p (.num n) = ((jsEntries p).filter keepArg).length := by
  rw [countFn]
  simp [typeofObject]

theorem countFn_typeof (p : JSVal) {sub : JSVal}
    (h : typeofObject sub = true) :
    countFn p sub = ((jsEntries p).filter keepArg).length + countSel sub := by
  rw [countFn, if_pos h]

theorem varNames_length (s k : Nat) : (varNames s k).length = k := by
  induction k generalizing s with
  | zero => rfl
  | succ k ih => simp [varNames, ih]

theorem varNames_append (s k1 k2 : Nat) :
    varNames s (k1 + k2) = varNames s k1 ++ varNames (s + k1) k2 := by
  induction k1 generalizing s with
  | zero => simp [varNames]
  | succ k ih =>
    rw [Nat.succ_add]
    simp only [varNames, List.cons_append]
    rw [ih (s + 1)]
    have : s + 1 + k = s + (k + 1) := by omega
    rw [this]

theorem mem_varNames {x : String} {s k : Nat} (h : x ∈ varNames s k) :
    ∃ i, i < k ∧ x = varName (s + i) := by
  induction k generalizing s with
  | zero => cases h
  | succ k ih =>
    rcases List.mem_cons.mp h with h1 | h2
    · exact ⟨0, by omega, by simpa using h1⟩
    · obtain ⟨i, hi, hx⟩ := ih h2
      refine ⟨i + 1, by omega, ?_⟩
      rw [hx]
      have : s + 1 + i = s + (i + 1) := by omega
      rw [this]

theorem varNames_nodup (s k : Nat) : (varNames s k).Nodup := by
  induction k generalizing s with
  | zero => exact List.nodup_nil
  | succ k ih =>
    refine List.nodup_cons.mpr ⟨?_, ih (s + 1)⟩
    intro hmem
    obtain ⟨i, hi, hx⟩ := mem_varNames hmem
    have := varName_injective hx
    omega

theorem VarsFrom_zero (st : EncState) : VarsFrom st st 0 :=
  ⟨by omega, [], by simp, rfl⟩

theorem VarsFrom_trans {st1 st2 st3 : EncState} {k1 k2 : Nat}
    (h1 : VarsFrom st1 st2 k1) (h2 : VarsFrom st2 st3 k2) :
    VarsFrom st1 st3 (k1 + k2) := by
  obtain ⟨hc1, d1, hv1, hn1⟩ := h1
  obtain ⟨hc2, d2, hv2, hn2⟩ := h2
  refine ⟨by omega, d1 ++ d2, ?_, ?_⟩
  · rw [hv2, hv1, List.append_assoc]
  · rw [List.map_append, hn1, hn2, hc1, varNames_append]

theorem encodeArgsList_vars (m : List (String × ArgCodec)) :
    ∀ (l : List (String × JSVal)) (st : EncState) (frags : List String)
      (st2 : EncState), encodeArgsList m l st = .ok (frags, st2) →
      VarsFrom st st2 l.length := by
  intro l
  induction l with
  | nil =>
    intro st frags st2 h
    simp only [encodeArgsList] at h
    injection h with h1
    injection h1 with ha hb
    subst hb
    exact VarsFrom_zero st
  | cons hd tl ih =>
    obtain ⟨argName, argValue⟩ := hd
    intro st frags st2 h
    simp only [encodeArgsList] at h
    cases h1 : lookupStr m argName with
    | none => simp [h1] at h
    | some ac =>
      simp only [h1] at h
      cases h2 : ac.encode argValue with
      | error e => simp [h2] at h
      | ok value =>
        simp only [h2] at h
        cases h3 : encodeArgsList m tl
            ⟨st.vars ++ [⟨ac.type, varName st.variableCounter, value⟩],
              st.variableCounter + 1⟩ with
        | error e => simp [h3] at h
        | ok pr =>
          obtain ⟨frags2, st3⟩ := pr
          simp only [h3] at h
          injection h with h4
          injection h4 with ha hb
          subst hb
          have hstep : VarsFrom st
              ⟨st.vars ++ [⟨ac.type, varName st.variableCounter, value⟩],
                st.variableCounter + 1⟩ 1 :=
            ⟨rfl, [⟨ac.type, varName st.variableCounter, value⟩], rfl, rfl⟩
          have htail := ih _ _ _ h3
          have := VarsFrom_trans hstep htail
          simpa [Nat.add_comm] using this

theorem encodeFunction_num (f : String) (p : JSVal) (k : Int)
    (cf : Codec.Field) (st : EncState) :
    encodeFunction f p (.num k) cf st =
      match cf.args with
      | none => .error .missingArgsCodec
      | some m =>
        match encodeArgsList m ((jsEntries p).filter keepArg) st with
        | .error e => .error e
        | .ok (input, st1) =>
          if input.isEmpty then .ok (f, st1)
          else .ok (f ++ "(" ++ String.intercalate ", " input ++ ")", st1) := by
  rw [encodeFunction]

theorem encodeFunction_objlike (f : String) (p : JSVal) {sub : JSVal}
    (h : typeofObject sub = true) (cf : Codec.Field) (st : EncState) :
    encodeFunction f p sub cf st =
      match cf.args with
      | none => .error .missingArgsCodec
      | some m =>
        match encodeArgsList m ((jsEntries p).filter keepArg) st with
        | .error e => .error e
        | .ok (input, st1) =>
          match cf.sub with
          | none => .error .missingSubCodecFn
          | some subCodec =>
            match encodeObject sub subCodec st1 with
            | .error e => .error e
            | .ok (s, st2) =>
              if input.isEmpty then .ok (f ++ " " ++ s, st2)
              else .ok (f ++ "(" ++ String.intercalate ", " input ++ ") " ++ s,
                st2) := by
  cases sub with
  | num k => simp [typeofObject] at h
  | str s0 => simp [typeofObject] at h
  | bool b => simp [typeofObject] at h
  | undef => simp [typeofObject] at h
  | null =>
    rw [encodeFunction]
    all_goals try (intro _ hx; exact JSVal.noConfusion hx)
    rfl
  | arr xs =>
    rw [encodeFunction]
    all_goals try (intro _ hx; exact JSVal.noConfusion hx)
    rfl
  | obj fs =>
    rw [encodeFunction]
    all_goals try (intro _ hx; exact JSVal.noConfusion hx)
    rfl

theorem encodeFunction_othersub (f : String) (p : JSVal) {sub : JSVal}
    (hnum : ∀ k : Int, sub ≠ .num k) (h : typeofObject sub = false)
    (cf : Codec.Field) (st : EncState) :
    encodeFunction f p sub cf st =
      match cf.args with
      | none => .error .missingArgsCodec
      | some m =>
        match encodeArgsList m ((jsEntries p).filter keepArg) st with
        | .error e => .error e
        | .ok (input, st1) => .error .invalidFunctionShape := by
  cases sub with
  | num k => exact absurd rfl (hnum k)
  | null => simp [typeofObject] at h
  | arr xs => simp [typeofObject] at h
  | obj fs => simp [typeofObject] at h
  | str s0 =>
    rw [encodeFunction]
    all_goals try (intro _ hx; exact JSVal.noConfusion hx)
    rfl
  | bool b =>
    rw [encodeFunction]
    all_goals try (intro _ hx; exact JSVal.noConfusion hx)
    rfl
  | undef =>
    rw [encodeFunction]
    all_goals try (intro _ hx; exact JSVal.noConfusion hx)
    rfl

theorem encodeVars_spec : ∀ n : Nat,
    (∀ (v : JSVal) (codec : Codec) (st : EncState) (s : String)
        (st2 : EncState), 4 * jsize v ≤ n →
      encodeObject v codec st = .ok (s, st2) →
      VarsFrom st st2 (countSel v)) ∧
    (∀ (f : String) (p sub : JSVal) (cf : Codec.Field) (st : EncState)
        (s : String) (st2 : EncState), 4 * jsize sub + 1 ≤ n →
      encodeFunction f p sub cf st = .ok (s, st2) →
      VarsFrom st st2 (countFn p sub)) ∧
    (∀ (f : String) (v : JSVal) (cf : Codec.Field) (st : EncState)
        (s : String) (st2 : EncState), 4 * jsize v + 2 ≤ n →
      encodeField f v cf st = .ok (s, st2) →
      VarsFrom st st2 (countFieldVal v)) ∧
    (∀ (l : List (String × JSVal)) (codec : Codec) (st : EncState)
        (os : List String) (st2 : EncState), 4 * jsizeFields l + 3 ≤ n →
      encodeEntries l codec st = .ok (os, st2) →
      VarsFrom st st2 (countEntries l)) := by
  intro n
  induction n using Nat.strong_induction_on with
  | _ n ih =>
    refine ⟨?_, ?_, ?_, ?_⟩
    · intro v codec st s st2 hn hok
      cases v with
      | obj fs =>
        rw [encodeObject_obj] at hok
        cases h1 : encodeEntries fs codec st with
        | error e => simp [h1] at hok
        | ok pr =>
          obtain ⟨frags, st1⟩ := pr
          simp only [h1] at hok
          injection hok with h2
          injection h2 with ha hb
          subst hb
          rw [countSel_obj]
          have hm : 4 * jsizeFields fs + 3 < n :=
            lt_of_lt_of_le (dec_obj_entries fs) hn
          exact (ih _ hm).2.2.2 fs codec st frags st1 (le_refl _) h1
      | arr xs =>
        rw [encodeObject_arr] at hok
        cases h1 : encodeEntries (indexEntries 0 xs) codec st with
        | error e => simp [h1] at hok
        | ok pr =>
          obtain ⟨frags, st1⟩ := pr
          simp only [h1] at hok
          injection hok with h2
          injection h2 with ha hb
          subst hb
          rw [countSel_arr]
          have hm : 4 * jsizeFields (indexEntries 0 xs) + 3 < n :=
            lt_of_lt_of_le (dec_arr_entries xs) hn
          exact (ih _ hm).2.2.2 (indexEntries 0 xs) codec st frags st1
            (le_refl _) h1
      | num n0 => rw [encodeObject_num] at hok; exact Except.noConfusion hok
      | str s0 => rw [encodeObject_str] at hok; exact Except.noConfusion hok
      | bool b => rw [encodeObject_bool] at hok; exact Except.noConfusion hok
      | null => rw [encodeObject_null] at hok; exact Except.noConfusion hok
      | undef => rw [encodeObject_undef] at hok; exact Except.noConfusion hok
    · intro f p sub cf st s st2 hn hok
      by_cases hto : typeofObject sub = true
      · rw [encodeFunction_objlike f p hto] at hok
        cases h1 : cf.args with
        | none => simp [h1] at hok
        | some m =>
          simp only [h1] at hok
          cases h2 : encodeArgsList m ((jsEntries p).filter keepArg) st with
          | error e => simp [h2] at hok
          | ok pr =>
            obtain ⟨input, st1⟩ := pr
            simp only [h2] at hok
            have hargs := encodeArgsList_vars m _ _ _ _ h2
            cases h3 : cf.sub with
            | none => simp [h3] at hok
            | some sc =>
              simp only [h3] at hok
              cases h4 : encodeObject sub sc st1 with
              | error e => simp [h4] at hok
              | ok pr2 =>
                obtain ⟨s2, st3⟩ := pr2
                simp only [h4] at hok
                have hm : 4 * jsize sub < n := by omega
                have hsub := (ih _ hm).1 sub sc st1 s2 st3 (le_refl _) h4
                rw [countFn_typeof p hto]
                split at hok <;>
                  (injection hok with h5; injection h5 with ha hb; subst hb;
                    exact VarsFrom_trans hargs hsub)
      · cases sub with
        | num k =>
          rw [encodeFunction_num] at hok
          cases h1 : cf.args with
          | none => simp [h1] at hok
          | some m =>
            simp only [h1] at hok
            cases h2 : encodeArgsList m ((jsEntries p).filter keepArg) st with
            | error e => simp [h2] at hok
            | ok pr =>
              obtain ⟨input, st1⟩ := pr
              simp only [h2] at hok
              have hargs := encodeArgsList_vars m _ _ _ _ h2
              rw [countFn_num]
              split at hok <;>
                (injection hok with h4; injection h4 with ha hb; subst hb;
                  exact hargs)
        | null => simp [typeofObject] at hto
        | arr xs => simp [typeofObject] at hto
        | obj fs => simp [typeofObject] at hto
        | str s0 =>
          rw [encodeFunction_othersub f p (fun k hx => JSVal.noConfusion hx)
            (show typeofObject (JSVal.str s0) = false from rfl)] at hok
          cases h1 : cf.args with
          | none => simp [h1] at hok
          | some m =>
            simp only [h1] at hok
            cases h2 : encodeArgsList m ((jsEntries p).filter keepArg) st with
            | error e => simp [h2] at hok
            | ok pr => simp [h2] at hok
        | bool b =>
          rw [encodeFunction_othersub f p (fun k hx => JSVal.noConfusion hx)
            (show typeofObject (JSVal.bool b) = false from rfl)] at hok
          cases h1 : cf.args with
          | none => simp [h1] at hok
          | some m =>
            simp only [h1] at hok
            cases h2 : encodeArgsList m ((jsEntries p).filter keepArg) st with
            | error e => simp [h2] at hok
            | ok pr => simp [h2] at hok
        | undef =>
          rw [encodeFunction_othersub f p (fun k hx => JSVal.noConfusion hx)
            (show typeofObject (JSVal.undef) = false from rfl)] at hok
          cases h1 : cf.args with
          | none => simp [h1] at hok
          | some m =>
            simp only [h1] at hok
            cases h2 : encodeArgsList m ((jsEntries p).filter keepArg) st with
            | error e => simp [h2] at hok
            | ok pr => simp [h2] at hok
    · intro f v cf st s st2 hn hok
      cases v with
      | num k =>
        rw [encodeField_num] at hok
        injection hok with h2
        injection h2 with ha hb
        subst hb
        rw [countFieldVal_num]
        exact VarsFrom_zero st
      | arr xs =>
        rw [encodeField_arr] at hok
        rw [countFieldVal_arr]
        have hm : 4 * jsize (getIdx xs 1) + 1 < n :=
          lt_of_lt_of_le (dec_field_fn xs) hn
        exact (ih _ hm).2.1 f (getIdx xs 0) (getIdx xs 1) cf st s st2
          (le_refl _) hok
      | obj fs =>
        rw [encodeField_obj] at hok
        cases h1 : cf.sub with
        | none => simp [h1] at hok
        | some sc =>
          simp only [h1] at hok
          cases h2 : encodeObject (.obj fs) sc st with
          | error e => simp [h2] at hok
          | ok pr =>
            obtain ⟨s2, st1⟩ := pr
            simp only [h2] at hok
            injection hok with h3
            injection h3 with ha hb
            subst hb
            rw [countFieldVal_obj]
            have hm : 4 * jsize (JSVal.obj fs) < n := by omega
            exact (ih _ hm).1 (.obj fs) sc st s2 st1 (le_refl _) h2
      | null =>
        rw [encodeField_null] at hok
        cases h1 : cf.sub with
        | none => simp [h1] at hok
        | some sc => simp [h1] at hok
      | str s0 =>
        rw [encodeField_str] at hok
        cases h1 : cf.sub with
        | none => simp [h1] at hok
        | some sc => simp [h1] at hok
      | bool b =>
        rw [encodeField_bool] at hok
        cases h1 : cf.sub with
        | none => simp [h1] at hok
        | some sc => simp [h1] at hok
      | undef =>
        rw [encodeField_undef] at hok
        cases h1 : cf.sub with
        | none => simp [h1] at hok
        | some sc => simp [h1] at hok
    · intro l codec st os st2 hn hok
      cases l with
      | nil =>
        rw [encodeEntries_nil] at hok
        injection hok with h2
        injection h2 with ha hb
        subst hb
        rw [countEntries_nil]
        exact VarsFrom_zero st
      | cons hd tl =>
        obtain ⟨k, w⟩ := hd
        rw [encodeEntries_cons] at hok
        cases h1 : lookupStr codec.entries k with
        | none => simp [h1] at hok
        | some cf =>
          simp only [h1] at hok
          cases h2 : encodeField k w cf st with
          | error e => simp [h2] at hok
          | ok pr =>
            obtain ⟨frag, st1⟩ := pr
            simp only [h2] at hok
            cases h3 : encodeEntries tl codec st1 with
            | error e => simp [h3] at hok
            | ok pr2 =>
              obtain ⟨frags, st3⟩ := pr2
              simp only [h3] at hok
              injection hok with h4
              injection h4 with ha hb
              subst hb
              rw [countEntries_cons]
              have hmf : 4 * jsize w + 2 < n :=
                lt_of_lt_of_le (dec_entries_field k w tl) hn
              have hme : 4 * jsizeFields tl + 3 < n :=
                lt_of_lt_of_le (dec_entries_rest k w tl) hn
              exact VarsFrom_trans
                ((ih _ hmf).2.2.1 k w cf st frag st1 (le_refl _) h2)
                ((ih _ hme).2.2.2 tl codec st1 frags st3 (le_refl _) h3)

theorem natStr_two : natStr 2 = "2" := by
  rw [natStr, natDigits_lt10 (by omega)]
  rfl

theorem any_eq_false_of_not_mem {k : String} {acc : List (String × JSVal)}
    (h : k ∉ acc.map Prod.fst) : (acc.any fun p => p.1 == k) = false := by
  rw [List.any_eq_false]
  intro p hp heq
  rw [beq_iff_eq] at heq
  exact h (List.mem_map.mpr ⟨p, hp, heq⟩)

theorem foldl_assign1_nodup :
    ∀ (l acc : List (String × JSVal)),
      (∀ x ∈ l.map Prod.fst, x ∉ acc.map Prod.fst) →
      (l.map Prod.fst).Nodup →
      l.foldl (fun a p => assign1 a p.1 p.2) acc = acc ++ l := by
  intro l
  induction l with
  | nil =>
    intro acc _ _
    simp
  | cons hd tl ih =>
    obtain ⟨k, v⟩ := hd
    intro acc hdis hnd
    simp only [List.map_cons] at hdis hnd
    have hknotin : k ∉ acc.map Prod.fst := hdis k (List.mem_cons_self k _)
    have hassign : assign1 acc k v = acc ++ [(k, v)] := by
      rw [assign1, any_eq_false_of_not_mem hknotin]
      simp
    rw [List.foldl_cons]
    have hfold1 : assign1 acc (k, v).1 (k, v).2 = acc ++ [(k, v)] := hassign
    rw [hfold1]
    rw [ih (acc ++ [(k, v)]) ?_ ?_]
    · simp
    · intro x hx hmem
      rw [List.map_append, List.mem_append] at hmem
      rcases hmem with hin | hin
      · exact hdis x (List.mem_cons_of_mem _ hx) hin
      · simp only [List.map_cons, List.map_nil, List.mem_singleton] at hin
        subst hin
        exact (List.nodup_cons.mp hnd).1 hx
    · exact (List.nodup_cons.mp hnd).2

/-- C7: every argument entry whose value is null or undefined is
skipped (no variable allocated, no fragment emitted), and when no
arguments remain after the filtering and the sub-selection is the
scalar sentinel, the output is the bare field name without
parentheses. -/
theorem c7_null_arguments_skipped :
    (∀ (f a : String) (pre post : List (String × JSVal)) (sub : JSVal)
        (cf : Codec.Field) (st : EncState),
      encodeFunction f (.obj (pre ++ (a, .null) :: post)) sub cf st =
        encodeFunction f (.obj (pre ++ post)) sub cf st) ∧
    (∀ (f a : String) (pre post : List (String × JSVal)) (sub : JSVal)
        (cf : Codec.Field) (st : EncState),
      encodeFunction f (.obj (pre ++ (a, .undef) :: post)) sub cf st =
        encodeFunction f (.obj (pre ++ post)) sub cf st) ∧
    (∀ (f : String) (params : JSVal) (n : Int) (cf : Codec.Field)
        (st : EncState) (argsMap : List (String × ArgCodec)),
      cf.args = some argsMap →
      (jsEntries params).filter keepArg = [] →
      encodeFunction f params (.num n) cf st = .ok (f, st)) := by
  refine ⟨?_, ?_, ?_⟩
  · intro f a pre post sub cf st
    rw [encodeFunction_eq, encodeFunction_eq]
    have hfe : (jsEntries (.obj (pre ++ (a, .null) :: post))).filter keepArg =
        (jsEntries (.obj (pre ++ post))).filter keepArg := by
      simp [jsEntries, List.filter_append, List.filter_cons, keepArg]
    rw [hfe]
  · intro f a pre post sub cf st
    rw [encodeFunction_eq, encodeFunction_eq]
    have hfe : (jsEntries (.obj (pre ++ (a, .undef) :: post))).filter keepArg =
        (jsEntries (.obj (pre ++ post))).filter keepArg := by
      simp [jsEntries, List.filter_append, List.filter_cons, keepArg]
    rw [hfe]
  · intro f params n cf st argsMap hargs hfilter
    rw [encodeFunction_num]
    rw [hargs]
    simp only [hfilter]
    rfl

/-- C7 witness: the skip rule and the bare-name rule at the concrete
field `getUser` with the single null argument `id`. -/
theorem c7_null_arguments_skipped_witness :
    encodeFunction "getUser" (.obj [("id", .null)]) (.num 1)
        (.mk dOk none (some [])) st0 =
      encodeFunction "getUser" (.obj []) (.num 1)
        (.mk dOk none (some [])) st0 ∧
    encodeFunction "getUser" (.obj [("id", .null)]) (.num 1)
        (.mk dOk none (some [])) st0 = .ok ("getUser", st0) := by
  constructor
  · exact c7_null_arguments_skipped.1 "getUser" "id" [] [] (.num 1)
      (.mk dOk none (some [])) st0
  · exact c7_null_arguments_skipped.2.2 "getUser" (.obj [("id", .null)]) 1
      (.mk dOk none (some [])) st0 []
      (show Codec.Field.args (.mk dOk none (some [])) = some [] from rfl)
      (show (jsEntries (.obj [("id", .null)])).filter keepArg = [] from rfl)

set_option maxHeartbeats 1000000 in
set_option maxRecDepth 4000 in
/-- C2 counterexample: the selection f: [a: 1, b: 2, sentinel]
contains exactly one argumented field, yet the encoded request's
variable mapping has two keys `v1`, `v2` (one per non-null argument
entry), so the mapping does not have exactly one key per argumented
field. -/
theorem c2_count_counterexample :
    encodeRequest "query" twoArgSel twoArgCodec =
      .ok ⟨"query($v1: Int, $v2: Int) \x7b f(a: $v1, b: $v2) \x7d",
        some [("v1", .num 1), ("v2", .num 2)]⟩ ∧
    [("v1", JSVal.num 1), ("v2", JSVal.num 2)].length ≠ 1 := by
  constructor
  · simp only [encodeRequest, encodeObject, encodeEntries, encodeField,
      encodeFunction, encodeArgsList, jsEntries, getIdx, lookupStr,
      Codec.entries, Codec.find, typeofObject, keepArg, twoArgCodec, twoArgSel,
      dOk, varName, natStr_one, natStr_two, variablesSupplyList,
      variablesJsonObject, assign1, Codec.Field.sub, Codec.Field.args,
      indexEntries, List.filter, List.getD_cons_zero, List.getD_cons_succ,
      ite_true, ite_false, one_add_one_eq_two]
    rfl
  · decide

/-- C2 amended: on success, the encoded request's variable mapping has
exactly `k` distinct keys named `v1..vk` in left-to-right depth-first
traversal order starting at 1, where `k` is the number of non-null,
non-undefined argument entries of the selection (`countSel`), not the
number of argumented fields. -/
theorem c2_variable_naming (op : String) (sel : JSVal) (codec : Codec)
    (r : EncodedRequest) (h : encodeRequest op sel codec = .ok r) :
    (r.vars.getD []).map Prod.fst = varNames 1 (countSel sel) ∧
    ((r.vars.getD []).map Prod.fst).Nodup := by
  simp only [encodeRequest] at h
  cases h0 : encodeObject sel codec ⟨[], 1⟩ with
  | error e => rw [h0] at h; exact Except.noConfusion h
  | ok pr =>
    obtain ⟨s, st⟩ := pr
    rw [h0] at h
    injection h with h1
    have hr : r.vars = variablesJsonObject st.vars :=
      (congrArg EncodedRequest.vars h1).symm
    have hv := (encodeVars_spec (4 * jsize sel)).1 sel codec ⟨[], 1⟩ s st
      (le_refl _) h0
    obtain ⟨hc, d, hd, hn⟩ := hv
    simp only [List.nil_append] at hd
    have hn2 : d.map Variable.name = varNames 1 (countSel sel) := hn
    rw [hr, hd, variablesJsonObject]
    by_cases hde : d.isEmpty
    · rw [if_pos hde]
      have hdnil : d = [] := List.isEmpty_iff.mp hde
      subst hdnil
      have hk0 : countSel sel = 0 := by
        have hlen := congrArg List.length hn2
        rw [varNames_length] at hlen
        simpa using hlen.symm
      rw [hk0]
      exact ⟨rfl, List.nodup_nil⟩
    · rw [if_neg hde]
      have hkeys : ((d.map (fun v => (v.name, v.value))).map Prod.fst) =
          varNames 1 (countSel sel) := by
        rw [List.map_map]
        exact hn2
      have hnodup : (((d.map (fun v => (v.name, v.value))).map Prod.fst)).Nodup := by
        rw [hkeys]
        exact varNames_nodup 1 _
      have hfold := foldl_assign1_nodup (d.map (fun v => (v.name, v.value))) []
        (by simp) hnodup
      simp only [List.nil_append] at hfold
      rw [hfold]
      simp only [Option.getD_some]
      exact ⟨hkeys, hnodup⟩

/-- C2 witness: the amended statement at the concrete example request,
whose single non-null argument yields the one-key mapping `v1`. -/
theorem c2_variable_naming_witness :
    ((EncodedRequest.mk
        "query($v1: Int) \x7b getUser(id: $v1) \x7b name email \x7d \x7d"
        (some [("v1", JSVal.num 42)])).vars.getD []).map Prod.fst =
      varNames 1 (countSel getUserSel) ∧
    (((EncodedRequest.mk
        "query($v1: Int) \x7b getUser(id: $v1) \x7b name email \x7d \x7d"
        (some [("v1", JSVal.num 42)])).vars.getD []).map Prod.fst).Nodup :=
  c2_variable_naming "query" getUserSel rootCodec _ encodeRequest_getUser_eval
